import Mathlib

/-!
Verification development for the Ethyr GainMeter plugin
(`Source/PluginProcessor.h`, `Source/PluginProcessor.cpp`).

Floating-point samples, gains and decibel values are embedded as real
numbers; block buffers are lists of per-channel sample lists.  The gain
smoother (`juce::LinearSmoothedValue<float>`, a library type whose
implementation is not part of this repository) is modelled from the
specification of `GainSmoother` (spec §3, §4.2): a linear ramp holding a
current value, a target value, a per-sample increment, a remaining-sample
countdown, and a configured ramp length in samples.
-/

namespace GainMeter

/-- Modelled from the spec: ramp state of `GainSmoother`
(`juce::LinearSmoothedValue<float> gainSmoother`, PluginProcessor.h:155,
implementation not in this repository).  Fields: current linear gain,
target linear gain, per-sample increment, remaining ramp-sample count,
configured ramp length in samples. -/
structure GainSmoother where
  currentValue : ℝ
  target : ℝ
  step : ℝ
  countdown : ℕ
  stepsToTarget : ℕ

/-- Modelled from the spec: `GainSmoother.nextValue()` (spec §4.2) advances
the ramp by exactly one sample and returns the interpolated value; once the
remaining count reaches zero, repeated calls return the target value
unchanged, and the final ramp sample lands on the target exactly. -/
def getNextValue (s : GainSmoother) : ℝ × GainSmoother :=
  if s.countdown = 0 then (s.target, s)
  else if s.countdown = 1 then
    (s.target, { s with currentValue := s.target, countdown := 0 })
  else
    (s.currentValue + s.step,
     { s with currentValue := s.currentValue + s.step, countdown := s.countdown - 1 })

/-- Modelled from the spec: `GainSmoother.setTarget(linearGain)` (spec §4.2).
If the new target differs from the current target, a fresh linear ramp is
begun from the current (possibly mid-ramp) value to the new target over the
configured ramp length; the increment is recomputed from the current value.
A degenerate zero-length configuration jumps immediately. -/
noncomputable def setTargetValue (v : ℝ) (s : GainSmoother) : GainSmoother :=
  if v = s.target then s
  else if s.stepsToTarget = 0 then
    { s with currentValue := v, target := v, countdown := 0 }
  else
    { s with target := v, countdown := s.stepsToTarget,
             step := (v - s.currentValue) / (s.stepsToTarget : ℝ) }

/-- Modelled from the spec: `GainSmoother.configure(sampleRate, rampSeconds)`
(spec §4.2) fixes the ramp length in samples as sampleRate × rampSeconds,
rounded, with a minimum of one sample, and resets the ramp so that the value
supplied next becomes both current and target. -/
noncomputable def configure (sampleRate rampSeconds : ℝ) (s : GainSmoother) : GainSmoother :=
  { s with stepsToTarget := max 1 (round (sampleRate * rampSeconds)).toNat,
           countdown := 0 }

/-- Modelled from the spec: immediate assignment of current and target
(completes the reset semantics of `configure`, spec §4.2). -/
def setCurrentAndTargetValue (v : ℝ) (s : GainSmoother) : GainSmoother :=
  { s with currentValue := v, target := v, countdown := 0 }

/-- States of the smoother that arise during operation: the countdown never
exceeds the configured ramp length, a finished ramp sits exactly on its
target, and mid-ramp the target is reached from the current value in exactly
`countdown` more increments of `step`. -/
def Consistent (s : GainSmoother) : Prop :=
  s.countdown ≤ s.stepsToTarget ∧
  (s.countdown = 0 → s.currentValue = s.target) ∧
  (s.countdown ≠ 0 → s.target = s.currentValue + (s.countdown : ℝ) * s.step)

/-- State of the smoother after `k` calls of `nextValue`. -/
def advance (s : GainSmoother) : ℕ → GainSmoother
  | 0 => s
  | k + 1 => (getNextValue (advance s k)).2

/-- Value returned by the `(k+1)`-th call of `nextValue` from state `s`. -/
def smootherOut (s : GainSmoother) (k : ℕ) : ℝ :=
  (getNextValue (advance s k)).1

theorem getNextValue_of_countdown_zero (s : GainSmoother) (h : s.countdown = 0) :
    getNextValue s = (s.target, s) := by
  simp [getNextValue, h]

theorem getNextValue_of_countdown_one (s : GainSmoother) (h : s.countdown = 1) :
    getNextValue s = (s.target, { s with currentValue := s.target, countdown := 0 }) := by
  simp [getNextValue, h]

theorem getNextValue_of_two_le_countdown (s : GainSmoother) (h : 2 ≤ s.countdown) :
    getNextValue s = (s.currentValue + s.step,
      { s with currentValue := s.currentValue + s.step, countdown := s.countdown - 1 }) := by
  rw [getNextValue, if_neg (by omega), if_neg (by omega)]

theorem advance_fields (s : GainSmoother) (h : Consistent s) (k : ℕ) :
    (advance s k).target = s.target ∧
    (advance s k).step = s.step ∧
    (advance s k).stepsToTarget = s.stepsToTarget ∧
    (advance s k).countdown = s.countdown - k ∧
    (advance s k).currentValue =
      (if k < s.countdown then s.currentValue + (k : ℝ) * s.step else s.target) := by
  obtain ⟨hle, h0, hmid⟩ := h
  induction k with
  | zero =>
    refine ⟨rfl, rfl, rfl, rfl, ?_⟩
    by_cases hcd : 0 < s.countdown
    · rw [if_pos hcd]
      simp [advance]
    · rw [if_neg hcd]
      exact h0 (by omega)
  | succ k ih =>
    obtain ⟨it, ist, iN, icd, ic⟩ := ih
    by_cases hfin : s.countdown ≤ k
    · have hc0 : (advance s k).countdown = 0 := by omega
      have hstate : advance s (k + 1) = advance s k := by
        show (getNextValue (advance s k)).2 = advance s k
        rw [getNextValue_of_countdown_zero _ hc0]
      rw [hstate]
      refine ⟨it, ist, iN, by omega, ?_⟩
      rw [ic, if_neg (by omega), if_neg (by omega)]
    · by_cases hlast : s.countdown = k + 1
      · have hc1 : (advance s k).countdown = 1 := by omega
        have hstate : advance s (k + 1) =
            { advance s k with currentValue := (advance s k).target, countdown := 0 } := by
          show (getNextValue (advance s k)).2 = _
          rw [getNextValue_of_countdown_one _ hc1]
        rw [hstate]
        refine ⟨it, ist, iN, by simp only; omega, ?_⟩
        rw [if_neg (by omega)]
        exact it
      · have hc2 : 2 ≤ (advance s k).countdown := by omega
        have hstate : advance s (k + 1) =
            { advance s k with
              currentValue := (advance s k).currentValue + (advance s k).step,
              countdown := (advance s k).countdown - 1 } := by
          show (getNextValue (advance s k)).2 = _
          rw [getNextValue_of_two_le_countdown _ hc2]
        rw [hstate]
        refine ⟨it, ist, iN, by simp only; omega, ?_⟩
        simp only
        rw [ic, if_pos (by omega), ist, if_pos (by omega)]
        push_cast
        ring

theorem smootherOut_eq (s : GainSmoother) (h : Consistent s) (k : ℕ) :
    smootherOut s k =
      if k + 1 < s.countdown then s.currentValue + ((k : ℝ) + 1) * s.step
      else s.target := by
  obtain ⟨it, ist, iN, icd, ic⟩ := advance_fields s h k
  rw [smootherOut]
  by_cases h1 : k + 1 < s.countdown
  · have hc2 : 2 ≤ (advance s k).countdown := by omega
    rw [getNextValue_of_two_le_countdown _ hc2]
    simp only
    rw [ic, if_pos (by omega), ist, if_pos h1]
    ring
  · by_cases h0 : k < s.countdown
    · have hc1 : (advance s k).countdown = 1 := by omega
      rw [getNextValue_of_countdown_one _ hc1]
      simp only
      rw [it, if_neg h1]
    · have hc0 : (advance s k).countdown = 0 := by omega
      rw [getNextValue_of_countdown_zero _ hc0]
      simp only
      rw [it, if_neg h1]

theorem smootherOut_between (s : GainSmoother) (h : Consistent s) (k : ℕ) :
    min s.currentValue s.target ≤ smootherOut s k ∧
    smootherOut s k ≤ max s.currentValue s.target := by
  rw [smootherOut_eq s h k]
  by_cases h1 : k + 1 < s.countdown
  · rw [if_pos h1]
    have ht := h.2.2 (by omega)
    have hk1 : ((k : ℝ) + 1) ≤ (s.countdown : ℝ) := by exact_mod_cast by omega
    have hk0 : (0:ℝ) ≤ (k : ℝ) + 1 := by positivity
    rcases le_total 0 s.step with hst | hst
    · constructor
      · exact le_trans (min_le_left _ _) (by nlinarith)
      · exact le_trans (by nlinarith) (le_max_right _ _)
    · constructor
      · exact le_trans (min_le_right _ _) (by nlinarith)
      · exact le_trans (by nlinarith) (le_max_left _ _)
  · rw [if_neg h1]
    exact ⟨min_le_right _ _, le_max_right _ _⟩

theorem smootherOut_mono (s : GainSmoother) (h : Consistent s)
    (hc : s.currentValue ≤ s.target) :
    ∀ j k, j ≤ k → smootherOut s j ≤ smootherOut s k := by
  intro j k hjk
  rw [smootherOut_eq s h j, smootherOut_eq s h k]
  by_cases hcd : s.countdown = 0
  · rw [if_neg (by omega), if_neg (by omega)]
  · have ht := h.2.2 hcd
    have hcdpos : (0:ℝ) < (s.countdown : ℝ) := by exact_mod_cast Nat.pos_of_ne_zero hcd
    have hst : 0 ≤ s.step := by nlinarith
    by_cases hj : j + 1 < s.countdown
    · by_cases hk2 : k + 1 < s.countdown
      · rw [if_pos hj, if_pos hk2]
        have hjk' : (j : ℝ) ≤ (k : ℝ) := by exact_mod_cast hjk
        nlinarith
      · rw [if_pos hj, if_neg hk2, ht]
        have : ((j : ℝ) + 1) ≤ (s.countdown : ℝ) := by exact_mod_cast by omega
        nlinarith
    · rw [if_neg hj, if_neg (by omega)]

theorem smootherOut_anti (s : GainSmoother) (h : Consistent s)
    (hc : s.target ≤ s.currentValue) :
    ∀ j k, j ≤ k → smootherOut s k ≤ smootherOut s j := by
  intro j k hjk
  rw [smootherOut_eq s h j, smootherOut_eq s h k]
  by_cases hcd : s.countdown = 0
  · rw [if_neg (by omega), if_neg (by omega)]
  · have ht := h.2.2 hcd
    have hcdpos : (0:ℝ) < (s.countdown : ℝ) := by exact_mod_cast Nat.pos_of_ne_zero hcd
    have hst : s.step ≤ 0 := by nlinarith
    by_cases hj : j + 1 < s.countdown
    · by_cases hk2 : k + 1 < s.countdown
      · rw [if_pos hj, if_pos hk2]
        have hjk' : (j : ℝ) ≤ (k : ℝ) := by exact_mod_cast hjk
        nlinarith
      · rw [if_pos hj, if_neg hk2, ht]
        have : ((j : ℝ) + 1) ≤ (s.countdown : ℝ) := by exact_mod_cast by omega
        nlinarith
    · rw [if_neg hj, if_neg (by omega)]

theorem smootherOut_arrival (s : GainSmoother) (h : Consistent s) (k : ℕ)
    (hk : s.countdown ≤ k + 1) : smootherOut s k = s.target := by
  rw [smootherOut_eq s h k, if_neg (by omega)]

theorem setTargetValue_target (v : ℝ) (s : GainSmoother) :
    (setTargetValue v s).target = v := by
  rw [setTargetValue]
  split_ifs with h1 h2
  · exact h1.symm
  · rfl
  · rfl

theorem setTargetValue_currentValue (v : ℝ) (s : GainSmoother)
    (hN : s.stepsToTarget ≠ 0) :
    (setTargetValue v s).currentValue = s.currentValue := by
  rw [setTargetValue]
  split_ifs with h1
  · rfl
  · rfl

theorem setTargetValue_stepsToTarget (v : ℝ) (s : GainSmoother) :
    (setTargetValue v s).stepsToTarget = s.stepsToTarget := by
  rw [setTargetValue]
  split_ifs <;> rfl

theorem setTargetValue_countdown_le (v : ℝ) (s : GainSmoother) (h : Consistent s) :
    (setTargetValue v s).countdown ≤ s.stepsToTarget := by
  rw [setTargetValue]
  split_ifs
  · exact h.1
  · simp
  · simp

theorem setTargetValue_consistent (v : ℝ) (s : GainSmoother) (h : Consistent s) :
    Consistent (setTargetValue v s) := by
  obtain ⟨hle, h0, hmid⟩ := h
  rw [setTargetValue]
  split_ifs with h1 h2
  · exact ⟨hle, h0, hmid⟩
  · exact ⟨by simp, by simp, by simp⟩
  · have hNr : (s.stepsToTarget : ℝ) ≠ 0 := Nat.cast_ne_zero.mpr h2
    refine ⟨by simp, by simp [h2], ?_⟩
    intro _
    simp only
    field_simp

/-- C2: after any `setTarget` call on a consistent smoother state with a
nonzero configured ramp length, the sequence of `nextValue` outputs stays
between the previous (current) value and the new target, is monotonic
(nondecreasing when ramping up, nonincreasing when ramping down), equals
the target exactly from the configured ramp-sample count onwards, and hence
every subsequent call returns the exact target value unchanged. -/
theorem gainSmoother_setTarget_ramp (s : GainSmoother) (v : ℝ)
    (h : Consistent s) (hN : s.stepsToTarget ≠ 0) :
    (∀ k, min s.currentValue v ≤ smootherOut (setTargetValue v s) k ∧
          smootherOut (setTargetValue v s) k ≤ max s.currentValue v) ∧
    (s.currentValue ≤ v → ∀ j k, j ≤ k →
        smootherOut (setTargetValue v s) j ≤ smootherOut (setTargetValue v s) k) ∧
    (v ≤ s.currentValue → ∀ j k, j ≤ k →
        smootherOut (setTargetValue v s) k ≤ smootherOut (setTargetValue v s) j) ∧
    (∀ k, s.stepsToTarget ≤ k + 1 → smootherOut (setTargetValue v s) k = v) := by
  have hcons := setTargetValue_consistent v s h
  have htv := setTargetValue_target v s
  have hcv := setTargetValue_currentValue v s hN
  have hcd := setTargetValue_countdown_le v s h
  refine ⟨?_, ?_, ?_, ?_⟩
  · intro k
    have hb := smootherOut_between _ hcons k
    rw [htv, hcv] at hb
    exact hb
  · intro hc j k hjk
    exact smootherOut_mono _ hcons (by rw [htv, hcv]; exact hc) j k hjk
  · intro hc j k hjk
    exact smootherOut_anti _ hcons (by rw [htv, hcv]; exact hc) j k hjk
  · intro k hk
    rw [smootherOut_arrival _ hcons k (le_trans hcd hk), htv]

/-- Witness for C2: a plateau state at gain 0 with a 3-sample ramp,
re-targeted to 1; the third output already equals the target exactly. -/
theorem gainSmoother_setTarget_ramp_witness :
    Consistent ⟨0, 0, 0, 0, 3⟩ ∧ (3 : ℕ) ≠ 0 ∧
    smootherOut (setTargetValue 1 ⟨0, 0, 0, 0, 3⟩) 2 = 1 := by
  have hc : Consistent (⟨0, 0, 0, 0, 3⟩ : GainSmoother) := by
    refine ⟨by norm_num, by norm_num, by norm_num⟩
  refine ⟨hc, by norm_num, ?_⟩
  exact (gainSmoother_setTarget_ramp ⟨0, 0, 0, 0, 3⟩ 1 hc (by norm_num)).2.2.2 2 (by norm_num)

/-- Smoother states whose current value, target and (mid-ramp) increment are
compatible with all targets having been drawn from the range `[lo, hi]` under
a configured ramp length of `stepsToTarget` samples. -/
def SafeState (lo hi : ℝ) (s : GainSmoother) : Prop :=
  Consistent s ∧ lo ≤ s.currentValue ∧ s.currentValue ≤ hi ∧
  lo ≤ s.target ∧ s.target ≤ hi ∧
  (s.countdown ≠ 0 → |s.step| ≤ (hi - lo) / (s.stepsToTarget : ℝ))

theorem getNextValue_stepsToTarget (s : GainSmoother) :
    (getNextValue s).2.stepsToTarget = s.stepsToTarget := by
  rw [getNextValue]
  split_ifs <;> rfl

theorem safeState_getNextValue (lo hi : ℝ) (s : GainSmoother)
    (h : SafeState lo hi s) : SafeState lo hi (getNextValue s).2 := by
  obtain ⟨⟨hle, h0, hmid⟩, hc1, hc2, ht1, ht2, hstep⟩ := h
  by_cases hz : s.countdown = 0
  · rw [getNextValue_of_countdown_zero _ hz]
    exact ⟨⟨hle, h0, hmid⟩, hc1, hc2, ht1, ht2, hstep⟩
  · by_cases ho : s.countdown = 1
    · rw [getNextValue_of_countdown_one _ ho]
      refine ⟨⟨by simp, by simp, by simp⟩, ht1, ht2, ht1, ht2, by simp⟩
    · have h2 : 2 ≤ s.countdown := by omega
      rw [getNextValue_of_two_le_countdown _ h2]
      have ht := hmid hz
      have hcd2 : (2 : ℝ) ≤ (s.countdown : ℝ) := by exact_mod_cast h2
      have hbound : lo ≤ s.currentValue + s.step ∧ s.currentValue + s.step ≤ hi := by
        rcases le_total 0 s.step with hst | hst
        · constructor
          · linarith
          · nlinarith
        · constructor
          · nlinarith
          · linarith
      refine ⟨⟨by simp only; omega, by simp only; omega, ?_⟩,
              hbound.1, hbound.2, ht1, ht2, ?_⟩
      · intro _
        simp only
        rw [Nat.cast_sub (by omega : 1 ≤ s.countdown)]
        push_cast
        ring_nf
        ring_nf at ht
        linarith
      · intro _
        simp only
        exact hstep hz

theorem safeState_setTargetValue (lo hi v : ℝ) (s : GainSmoother)
    (h : SafeState lo hi s) (hN : s.stepsToTarget ≠ 0)
    (hv1 : lo ≤ v) (hv2 : v ≤ hi) : SafeState lo hi (setTargetValue v s) := by
  obtain ⟨⟨hle, h0, hmid⟩, hc1, hc2, ht1, ht2, hstep⟩ := h
  rw [setTargetValue]
  split_ifs with h1
  · exact ⟨⟨hle, h0, hmid⟩, hc1, hc2, ht1, ht2, hstep⟩
  · have hNr : (s.stepsToTarget : ℝ) ≠ 0 := Nat.cast_ne_zero.mpr hN
    refine ⟨⟨by simp, by simp [hN], ?_⟩, hc1, hc2, hv1, hv2, ?_⟩
    · intro _
      simp only
      field_simp
    · intro _
      simp only
      have habs : |v - s.currentValue| ≤ hi - lo :=
        abs_sub_le_iff.mpr ⟨by linarith, by linarith⟩
      calc |(v - s.currentValue) / (s.stepsToTarget : ℝ)|
          = |v - s.currentValue| / (s.stepsToTarget : ℝ) := by
            rw [abs_div, abs_of_nonneg (by positivity : (0:ℝ) ≤ (s.stepsToTarget : ℝ))]
        _ ≤ (hi - lo) / (s.stepsToTarget : ℝ) := by gcongr

theorem getNextValue_fst_eq (s : GainSmoother) (h : Consistent s) :
    (getNextValue s).1 = (getNextValue s).2.currentValue := by
  by_cases hz : s.countdown = 0
  · rw [getNextValue_of_countdown_zero _ hz]
    exact (h.2.1 hz).symm
  · by_cases ho : s.countdown = 1
    · rw [getNextValue_of_countdown_one _ ho]
    · rw [getNextValue_of_two_le_countdown _ (by omega)]

theorem getNextValue_move (lo hi : ℝ) (s : GainSmoother) (h : SafeState lo hi s) :
    |(getNextValue s).2.currentValue - s.currentValue| ≤
      (hi - lo) / (s.stepsToTarget : ℝ) := by
  obtain ⟨⟨hle, h0, hmid⟩, hc1, hc2, ht1, ht2, hstep⟩ := h
  have hM : 0 ≤ (hi - lo) / (s.stepsToTarget : ℝ) :=
    div_nonneg (by linarith) (by positivity)
  by_cases hz : s.countdown = 0
  · rw [getNextValue_of_countdown_zero _ hz]
    simpa using hM
  · by_cases ho : s.countdown = 1
    · rw [getNextValue_of_countdown_one _ ho]
      simp only
      have ht := hmid hz
      rw [ho] at ht
      push_cast at ht
      have hts : s.target - s.currentValue = s.step := by linarith
      rw [hts]
      exact hstep hz
    · rw [getNextValue_of_two_le_countdown _ (by omega)]
      simp only
      have hcs : s.currentValue + s.step - s.currentValue = s.step := by ring
      rw [hcs]
      exact hstep hz

/-- Operations the processing engine performs on the smoother: re-targeting
(once per block, PluginProcessor.cpp:172) and per-sample advancement
(PluginProcessor.cpp:186), in arbitrary interleaving. -/
inductive SmootherOp where
  | setTarget (v : ℝ)
  | next

/-- Trace semantics: the list of values the smoother emits when the given
operations are applied in order. -/
noncomputable def run : GainSmoother → List SmootherOp → List ℝ
  | _, [] => []
  | s, SmootherOp.setTarget v :: ops => run (setTargetValue v s) ops
  | s, SmootherOp.next :: ops => (getNextValue s).1 :: run (getNextValue s).2 ops

theorem run_chain (lo hi : ℝ) (N : ℕ) (hN : N ≠ 0) (ops : List SmootherOp) :
    ∀ s : GainSmoother, SafeState lo hi s → s.stepsToTarget = N →
      (∀ v, SmootherOp.setTarget v ∈ ops → lo ≤ v ∧ v ≤ hi) →
      List.Chain' (fun a b => |b - a| ≤ (hi - lo) / (N : ℝ))
        (s.currentValue :: run s ops) := by
  induction ops with
  | nil =>
    intro s _ _ _
    simp [run]
  | cons op rest ih =>
    intro s hs hsN hops
    cases op with
    | setTarget v =>
      have hv := hops v (List.mem_cons_self _ _)
      have hs' := safeState_setTargetValue lo hi v s hs (by omega) hv.1 hv.2
      have hcv := setTargetValue_currentValue v s (by omega)
      have hN' := (setTargetValue_stepsToTarget v s).trans hsN
      have hch := ih (setTargetValue v s) hs' hN'
        (fun w hw => hops w (List.mem_cons_of_mem _ hw))
      rw [hcv] at hch
      simpa [run] using hch
    | next =>
      have hs' := safeState_getNextValue lo hi s hs
      have hfst := getNextValue_fst_eq s hs.1
      have hmove := getNextValue_move lo hi s hs
      have hN' := (getNextValue_stepsToTarget s).trans hsN
      have hch := ih (getNextValue s).2 hs' hN'
        (fun w hw => hops w (List.mem_cons_of_mem _ hw))
      simp only [run]
      rw [List.chain'_cons, hfst]
      refine ⟨?_, hch⟩
      rw [hsN] at hmove
      exact hmove

/-- C5: over any interleaving of re-targeting and per-sample advancement in
which every target lies in `[lo, hi]` (as every decibels-to-gain conversion
of an in-range parameter does), consecutive `nextValue` outputs never differ
by more than `(hi - lo) / stepsToTarget`, the largest per-sample increment
the configured ramp length allows; each re-target recomputes the increment
from the current, possibly mid-ramp, value. -/
theorem gainSmoother_retarget_no_click (lo hi : ℝ) (s : GainSmoother)
    (ops : List SmootherOp) (hs : SafeState lo hi s) (hN : s.stepsToTarget ≠ 0)
    (hops : ∀ v, SmootherOp.setTarget v ∈ ops → lo ≤ v ∧ v ≤ hi) :
    List.Chain' (fun a b => |b - a| ≤ (hi - lo) / (s.stepsToTarget : ℝ))
      (run s ops) :=
  (run_chain lo hi s.stepsToTarget hN ops s hs rfl hops).tail

/-- Witness for C5: a 2-sample ramp over `[0, 1]`, re-targeted mid-ramp;
consecutive outputs never differ by more than `1 / 2`. -/
theorem gainSmoother_retarget_no_click_witness :
    SafeState 0 1 ⟨0, 0, 0, 0, 2⟩ ∧
    List.Chain'
      (fun a b => |b - a| ≤ (1 - 0) / (((⟨0, 0, 0, 0, 2⟩ : GainSmoother).stepsToTarget : ℕ) : ℝ))
      (run ⟨0, 0, 0, 0, 2⟩
        [SmootherOp.setTarget 1, SmootherOp.next, SmootherOp.next,
         SmootherOp.setTarget 0, SmootherOp.next]) := by
  have hs : SafeState 0 1 (⟨0, 0, 0, 0, 2⟩ : GainSmoother) := by
    refine ⟨⟨by norm_num, by norm_num, by simp⟩, by norm_num, by norm_num,
            by norm_num, by norm_num, by simp⟩
  refine ⟨hs, ?_⟩
  apply gainSmoother_retarget_no_click 0 1 _ _ hs (by norm_num)
  intro v hv
  simp only [List.mem_cons, List.not_mem_nil, or_false] at hv
  rcases hv with hv | hv | hv | hv | hv
  · cases hv
    norm_num
  · cases hv
  · cases hv
  · cases hv
    norm_num
  · cases hv

/-- Modelled from the spec: decibel-to-linear conversion (spec §4.2),
linear = 10^(dB/20) (`juce::Decibels::decibelsToGain`, library code not in
this repository). -/
noncomputable def decibelsToGain (db : ℝ) : ℝ := (10 : ℝ) ^ (db / 20)

/-- Modelled from the spec: linear-to-decibel conversion of a positive
magnitude (spec §4.3 step 3), dB = 20·log10(linear)
(`juce::Decibels::gainToDecibels`, library code not in this repository; the
zero-magnitude case is handled separately in `processBlock`). -/
noncomputable def gainToDecibels (g : ℝ) : ℝ := 20 * Real.logb 10 g

/-- Inner loop of `processBlock` (PluginProcessor.cpp:183-193): for one
channel, each sample obtains its own smoothed gain value from the smoother,
is scaled in place, and the running peak of absolute output values is
updated. -/
noncomputable def processChannel :
    GainSmoother → ℝ → List ℝ → List ℝ × GainSmoother × ℝ
  | g, peak, [] => ([], g, peak)
  | g, peak, x :: xs =>
      let y := x * (getNextValue g).1
      let r := processChannel (getNextValue g).2 (max peak |y|) xs
      (y :: r.1, r.2)

/-- Outer loop of `processBlock` (PluginProcessor.cpp:178-194): channels are
processed one after another, threading the smoother state and the running
peak through. -/
noncomputable def processChannels :
    GainSmoother → ℝ → List (List ℝ) → List (List ℝ) × GainSmoother × ℝ
  | g, peak, [] => ([], g, peak)
  | g, peak, ch :: chs =>
      let r := processChannel g peak ch
      let rr := processChannels r.2.1 r.2.2 chs
      (r.1 :: rr.1, rr.2)

/-- Processor state (PluginProcessor.h:30-160): the gain parameter in
decibels, the gain smoother, and the peak slot published to the UI thread. -/
structure GainMeterAudioProcessor where
  gainParameter : ℝ
  gainSmoother : GainSmoother
  currentPeakLevel : ℝ

/-- Construction-time state (PluginProcessor.cpp:18-38, PluginProcessor.h:149):
the gain parameter defaults to 0 dB, the smoother is default-initialized, and
the peak slot starts at 0.0. -/
def initialProcessor : GainMeterAudioProcessor := ⟨0, ⟨0, 0, 0, 0, 0⟩, 0⟩

/-- Thread-safe peak accessor, getPeakLevel (PluginProcessor.h:133). -/
def getPeakLevel (p : GainMeterAudioProcessor) : ℝ := p.currentPeakLevel

/-- Thread-safe gain accessor, getGainValue (PluginProcessor.h:127). -/
def getGainValue (p : GainMeterAudioProcessor) : ℝ := p.gainParameter

/-- prepareToPlay (PluginProcessor.cpp:116-124): reconfigure the smoother for
the given sample rate with a 50 ms (1/20 s) ramp, then make the current
parameter value, converted to linear gain, both current and target per the
reset semantics of `configure` (spec §4.2). -/
noncomputable def prepareToPlay (sampleRate : ℝ) (p : GainMeterAudioProcessor) :
    GainMeterAudioProcessor :=
  { p with gainSmoother :=
      (setCurrentAndTargetValue (decibelsToGain p.gainParameter)
        (configure sampleRate (1 / 20) p.gainSmoother)) }

/-- processBlock (PluginProcessor.cpp:158-201): convert the parameter to a
linear target gain, set the smoother target, run the channel-major sample
loop, and publish the peak: positive peaks as decibels, anything else as the
-60 dB silence floor.  Returns the updated processor state and the scaled
buffer.  (Clearing of output channels beyond the input channels, lines
167-168, concerns layouts with more outputs than inputs, which
isBusesLayoutSupported rejects; it is not represented.) -/
noncomputable def processBlock (p : GainMeterAudioProcessor)
    (buffer : List (List ℝ)) : GainMeterAudioProcessor × List (List ℝ) :=
  let g0 := setTargetValue (decibelsToGain p.gainParameter) p.gainSmoother
  let r := processChannels g0 0 buffer
  let published := if 0 < r.2.2 then gainToDecibels r.2.2 else (-60 : ℝ)
  (⟨p.gainParameter, r.2.1, published⟩, r.1)

/-- Modelled from the spec: the host-owned parameter abstraction
(`juce::AudioParameterFloat`, library code not in this repository) clamps
writes to the declared range [-60, 12] (spec §3, §4.1). -/
noncomputable def setGainParameter (v : ℝ) (p : GainMeterAudioProcessor) :
    GainMeterAudioProcessor :=
  { p with gainParameter := max (-60) (min 12 v) }

/-- Result of deserializing a persisted-state blob
(PluginProcessor.cpp:238): either the binary data does not parse back to XML
(`getXmlFromBinary` yields null), or it parses to a tree with a root tag and
an optional numeric "gain" property. -/
inductive StateData where
  | malformed
  | tree (tag : String) (gainProp : Option ℝ)

/-- getStateInformation (PluginProcessor.cpp:220-233): the persisted state is
a "GainMeterState" tree holding the current gain parameter value. -/
def getStateInformation (p : GainMeterAudioProcessor) : StateData :=
  StateData.tree "GainMeterState" (some p.gainParameter)

/-- setStateInformation (PluginProcessor.cpp:235-251): unparseable data is
ignored; a tree with the expected root tag restores the gain property,
defaulting to 0.0 when the property is absent, through the clamping parameter
assignment; a tree with any other root tag is ignored. -/
noncomputable def setStateInformation (d : StateData) (p : GainMeterAudioProcessor) :
    GainMeterAudioProcessor :=
  match d with
  | StateData.malformed => p
  | StateData.tree tag gainProp =>
      if tag = "GainMeterState" then setGainParameter (gainProp.getD 0) p
      else p

theorem decibelsToGain_zero : decibelsToGain 0 = 1 := by
  rw [decibelsToGain, zero_div, Real.rpow_zero]

theorem decibelsToGain_neg_sixty : decibelsToGain (-60) = 1 / 1000 := by
  rw [decibelsToGain]
  have h : ((-60 : ℝ) / 20) = ((-3 : ℤ) : ℝ) := by norm_num
  rw [h, Real.rpow_intCast]
  norm_num

theorem logb_decibelsToGain (db : ℝ) :
    Real.logb 10 (decibelsToGain db) = db / 20 := by
  rw [decibelsToGain]
  exact Real.logb_rpow (by norm_num) (by norm_num)

theorem decibelsToGain_pos (db : ℝ) : 0 < decibelsToGain db :=
  Real.rpow_pos_of_pos (by norm_num) _

theorem logb_ten_zpow (z : ℤ) : Real.logb 10 ((10 : ℝ) ^ z) = z := by
  rw [← Real.rpow_intCast]
  exact Real.logb_rpow (by norm_num) (by norm_num)

/-- C10: before any block has been processed, the published peak slot holds
its construction-time value 0.0 dB, which is not the -60.0 dB silence floor,
so the first value a polling reader can observe reflects no processed
block. -/
theorem initial_peak_level_is_zero :
    getPeakLevel initialProcessor = 0 ∧ getPeakLevel initialProcessor ≠ -60 := by
  constructor
  · rfl
  · show (0 : ℝ) ≠ -60
    norm_num

/-- C8: for a zero or negative sample rate, the ramp length prepareToPlay
configures is clamped to the safe minimum of one sample — the ramp-length
computation never yields a zero-length ramp, so every subsequent ramp
divides by a nonzero sample count. -/
theorem prepareToPlay_nonpositive_sampleRate (p : GainMeterAudioProcessor)
    (sampleRate : ℝ) (h : sampleRate ≤ 0) :
    (prepareToPlay sampleRate p).gainSmoother.stepsToTarget = 1 := by
  show max 1 (round (sampleRate * (1 / 20))).toNat = 1
  have h1 : sampleRate * (1 / 20) ≤ 0 := by nlinarith
  have h2 : round (sampleRate * (1 / 20)) ≤ 0 := by
    rw [round_eq]
    calc ⌊sampleRate * (1 / 20) + 1 / 2⌋ ≤ ⌊(1 : ℝ) / 2⌋ :=
          Int.floor_le_floor (by linarith)
      _ = 0 := by
          rw [Int.floor_eq_zero_iff]
          constructor <;> norm_num
  have h3 : (round (sampleRate * (1 / 20))).toNat = 0 := Int.toNat_eq_zero.mpr h2
  rw [h3]
  rfl

/-- Witness for C8: a sample rate of exactly 0 yields a one-sample ramp. -/
theorem prepareToPlay_nonpositive_sampleRate_witness :
    (0 : ℝ) ≤ 0 ∧ (prepareToPlay 0 initialProcessor).gainSmoother.stepsToTarget = 1 :=
  ⟨le_refl 0, prepareToPlay_nonpositive_sampleRate initialProcessor 0 (le_refl 0)⟩

/-- C7: persisting any in-range gain value with getStateInformation and
restoring the produced data with setStateInformation into any processor
state yields exactly the same gain parameter value. -/
theorem state_round_trip (p q : GainMeterAudioProcessor)
    (h1 : -60 ≤ p.gainParameter) (h2 : p.gainParameter ≤ 12) :
    (setStateInformation (getStateInformation p) q).gainParameter =
      p.gainParameter := by
  simp only [getStateInformation, setStateInformation, setGainParameter,
    Option.getD_some, if_pos]
  rw [min_eq_right h2, max_eq_right h1]

/-- Witness for C7: the in-range value 5 dB survives a save/restore round
trip exactly. -/
theorem state_round_trip_witness :
    (-60 : ℝ) ≤ 5 ∧ (5 : ℝ) ≤ 12 ∧
    (setStateInformation (getStateInformation ⟨5, ⟨0, 0, 0, 0, 0⟩, 0⟩)
        initialProcessor).gainParameter = 5 :=
  ⟨by norm_num, by norm_num,
   state_round_trip ⟨5, ⟨0, 0, 0, 0, 0⟩, 0⟩ initialProcessor
     (by norm_num) (by norm_num)⟩

/-- C6 counterexample: restoring from malformed persisted data leaves a
nonzero gain parameter unchanged instead of setting it to 0.0 dB. -/
theorem setState_malformed_keeps_gain :
    (setStateInformation StateData.malformed ⟨6, ⟨0, 0, 0, 0, 0⟩, 0⟩).gainParameter = 6 ∧
    (6 : ℝ) ≠ 0 := by
  constructor
  · rfl
  · norm_num

/-- C6 (amended): a parseable state with the expected root tag but an absent
gain field restores the parameter to exactly 0.0 dB; unparseable data, or a
root tag other than "GainMeterState", leaves the processor unchanged; every
case is a total, non-failing update. -/
theorem setState_absent_defaults_malformed_ignored (p : GainMeterAudioProcessor)
    (tag : String) (gainProp : Option ℝ) (htag : tag ≠ "GainMeterState") :
    (setStateInformation (StateData.tree "GainMeterState" none) p).gainParameter = 0 ∧
    setStateInformation StateData.malformed p = p ∧
    setStateInformation (StateData.tree tag gainProp) p = p := by
  refine ⟨?_, rfl, ?_⟩
  · simp only [setStateInformation, setGainParameter, Option.getD_none, if_pos]
    rw [min_eq_right (by norm_num), max_eq_right (by norm_num)]
  · simp only [setStateInformation, if_neg htag]

/-- Witness for C6's amended statement: restoring a well-tagged state with
no gain field into the freshly constructed processor yields 0.0 dB. -/
theorem setState_absent_defaults_malformed_ignored_witness :
    ("bogus" ≠ "GainMeterState") ∧
    (setStateInformation (StateData.tree "GainMeterState" none)
        initialProcessor).gainParameter = 0 :=
  ⟨by decide,
   (setState_absent_defaults_malformed_ignored initialProcessor "bogus" none
     (by decide)).1⟩

theorem setTargetValue_midramp_example :
    setTargetValue 1 ⟨1/1000, 1/1000, 0, 0, 4⟩ = ⟨1/1000, 1, 999/4000, 4, 4⟩ := by
  rw [setTargetValue]
  rw [if_neg (by norm_num), if_neg (by norm_num)]
  norm_num [GainSmoother.mk.injEq]

/-- C1 (failing-input evaluation): processBlock consumes one smoother value
per channel per sample — the channel loop is outermost — so in a 2-channel
block processed mid-ramp (current gain 1/1000, target re-set to unity over a
4-sample ramp) the first sample frame is scaled by 1003/4000 on channel 0
but by 3001/4000 on channel 1, although the input samples of that frame are
identical.  The spec requires one nextValue per sample index with the
identical gain applied to every channel of the frame. -/
theorem processBlock_gain_consumed_per_channel :
    (processBlock ⟨0, ⟨1/1000, 1/1000, 0, 0, 4⟩, 0⟩ [[1, 1], [1, 1]]).2 =
      [[1003/4000, 1001/2000], [3001/4000, 1]] ∧
    (1003/4000 : ℝ) ≠ 3001/4000 := by
  have hA : getNextValue ⟨1/1000, 1, 999/4000, 4, 4⟩
      = (1003/4000, ⟨1003/4000, 1, 999/4000, 3, 4⟩) := by
    rw [getNextValue_of_two_le_countdown _ (by norm_num)]
    norm_num [Prod.mk.injEq, GainSmoother.mk.injEq]
  have hB : getNextValue ⟨1003/4000, 1, 999/4000, 3, 4⟩
      = (1001/2000, ⟨1001/2000, 1, 999/4000, 2, 4⟩) := by
    rw [getNextValue_of_two_le_countdown _ (by norm_num)]
    norm_num [Prod.mk.injEq, GainSmoother.mk.injEq]
  have hC : getNextValue ⟨1001/2000, 1, 999/4000, 2, 4⟩
      = (3001/4000, ⟨3001/4000, 1, 999/4000, 1, 4⟩) := by
    rw [getNextValue_of_two_le_countdown _ (by norm_num)]
    norm_num [Prod.mk.injEq, GainSmoother.mk.injEq]
  have hD : getNextValue ⟨3001/4000, 1, 999/4000, 1, 4⟩
      = (1, ⟨1, 1, 999/4000, 0, 4⟩) := by
    rw [getNextValue_of_countdown_one _ (by norm_num)]
  constructor
  · simp only [processBlock, decibelsToGain_zero, setTargetValue_midramp_example,
      processChannels, processChannel, hA, hB, hC, hD]
    norm_num
  · norm_num

theorem setTargetValue_unity_noop :
    setTargetValue 1 ⟨1, 1, 0, 0, 4⟩ = ⟨1, 1, 0, 0, 4⟩ := by
  rw [setTargetValue, if_pos rfl]

theorem getNextValue_unity_plateau :
    getNextValue ⟨1, 1, 0, 0, 4⟩ = (1, ⟨1, 1, 0, 0, 4⟩) :=
  getNextValue_of_countdown_zero _ rfl

/-- Evaluation helper: a single-sample single-channel block processed at
unity gain (parameter 0 dB, smoother settled at linear gain 1) publishes the
decibel value of the sample magnitude, or the -60 floor if it is zero. -/
theorem processBlock_unity_single (x : ℝ) :
    (processBlock ⟨0, ⟨1, 1, 0, 0, 4⟩, 0⟩ [[x]]).1.currentPeakLevel =
      if 0 < |x| then gainToDecibels |x| else -60 := by
  simp only [processBlock, decibelsToGain_zero, setTargetValue_unity_noop,
    processChannels, processChannel, getNextValue_unity_plateau, mul_one]
  rw [max_eq_right (abs_nonneg x)]

theorem processChannel_peak_of_zero (g : GainSmoother) (peak : ℝ) (hp : 0 ≤ peak)
    (xs : List ℝ) :
    (∀ x ∈ xs, x = 0) → (processChannel g peak xs).2.2 = peak := by
  induction xs generalizing g with
  | nil => intro _; rfl
  | cons x xs ih =>
    intro h
    have hx := h x (List.mem_cons_self _ _)
    simp only [processChannel]
    rw [hx, zero_mul, abs_zero, max_eq_left hp]
    exact ih _ (fun y hy => h y (List.mem_cons_of_mem _ hy))

theorem processChannels_peak_of_zero (buf : List (List ℝ)) (g : GainSmoother)
    (peak : ℝ) (hp : 0 ≤ peak) :
    (∀ ch ∈ buf, ∀ x ∈ ch, x = 0) → (processChannels g peak buf).2.2 = peak := by
  induction buf generalizing g with
  | nil => intro _; rfl
  | cons ch chs ih =>
    intro h
    simp only [processChannels]
    rw [processChannel_peak_of_zero g peak hp ch (h ch (List.mem_cons_self _ _))]
    exact ih _ (fun c hc => h c (List.mem_cons_of_mem _ hc))

/-- C4: processing an all-zero block publishes exactly -60.0 — the floor,
never negative infinity — and processing a block containing a sample of
absolute value 1.0 with gain at unity (parameter 0 dB, smoother settled at
linear gain 1 = decibelsToGain 0) publishes exactly 0.0. -/
theorem peak_silence_floor_and_unity_zero (p : GainMeterAudioProcessor)
    (buf : List (List ℝ)) (h : ∀ ch ∈ buf, ∀ x ∈ ch, x = 0) :
    (processBlock p buf).1.currentPeakLevel = -60 ∧
    (processBlock ⟨0, ⟨1, 1, 0, 0, 4⟩, 0⟩ [[1]]).1.currentPeakLevel = 0 := by
  constructor
  · simp only [processBlock]
    rw [processChannels_peak_of_zero buf _ 0 le_rfl h]
    rw [if_neg (lt_irrefl 0)]
  · rw [processBlock_unity_single 1, abs_one, if_pos one_pos, gainToDecibels,
      Real.logb_one, mul_zero]

/-- Witness for C4: a concrete 2-channel all-zero block publishes -60.0. -/
theorem peak_silence_floor_and_unity_zero_witness :
    (∀ ch ∈ [[(0 : ℝ), 0], [0, 0]], ∀ x ∈ ch, x = 0) ∧
    (processBlock initialProcessor [[0, 0], [0, 0]]).1.currentPeakLevel = -60 := by
  have h : ∀ ch ∈ [[(0 : ℝ), 0], [0, 0]], ∀ x ∈ ch, x = 0 := by simp
  exact ⟨h, (peak_silence_floor_and_unity_zero initialProcessor _ h).1⟩

/-- C3 counterexample: with gain at unity, a block whose post-gain peak is
1/10000 publishes -80 dB, below the claimed lower bound -60, and a block
whose post-gain peak is 100 publishes 40 dB, above the claimed upper bound
12; the published value is not confined to [-60, 12]. -/
theorem published_peak_leaves_range :
    (processBlock ⟨0, ⟨1, 1, 0, 0, 4⟩, 0⟩ [[1/10000]]).1.currentPeakLevel = -80 ∧
    (processBlock ⟨0, ⟨1, 1, 0, 0, 4⟩, 0⟩ [[100]]).1.currentPeakLevel = 40 ∧
    ¬(-60 ≤ (-80 : ℝ)) ∧ ¬((40 : ℝ) ≤ 12) := by
  refine ⟨?_, ?_, by norm_num, by norm_num⟩
  · rw [processBlock_unity_single,
      abs_of_nonneg (by norm_num : (0 : ℝ) ≤ 1/10000),
      if_pos (by norm_num), gainToDecibels,
      show (1/10000 : ℝ) = (10 : ℝ) ^ (-4 : ℤ) by norm_num,
      logb_ten_zpow]
    norm_num
  · rw [processBlock_unity_single,
      abs_of_nonneg (by norm_num : (0 : ℝ) ≤ 100),
      if_pos (by norm_num), gainToDecibels,
      show (100 : ℝ) = (10 : ℝ) ^ (2 : ℤ) by norm_num,
      logb_ten_zpow]
    norm_num

/-- Peak magnitude computed by processBlock for a block before conversion to
decibels (the final value of `peakLevel`, PluginProcessor.cpp:175-194). -/
noncomputable def blockPeak (p : GainMeterAudioProcessor)
    (buf : List (List ℝ)) : ℝ :=
  (processChannels (setTargetValue (decibelsToGain p.gainParameter) p.gainSmoother)
    0 buf).2.2

theorem processBlock_published_eq (p : GainMeterAudioProcessor)
    (buf : List (List ℝ)) :
    (processBlock p buf).1.currentPeakLevel =
      if 0 < blockPeak p buf then gainToDecibels (blockPeak p buf) else -60 := rfl

theorem one_le_decibelsToGain_twelve : (1 : ℝ) ≤ decibelsToGain 12 := by
  rw [decibelsToGain]
  calc (1 : ℝ) = (10 : ℝ) ^ (0 : ℝ) := (Real.rpow_zero 10).symm
    _ ≤ (10 : ℝ) ^ ((12 : ℝ) / 20) :=
        Real.rpow_le_rpow_of_exponent_le (by norm_num) (by norm_num)

/-- C3 (amended): the published peak value lies in [-60, 12] for silent
blocks and for blocks whose post-gain peak magnitude lies between the linear
gains of -60 dB and +12 dB, and the construction-time slot value 0.0 lies in
the range; without the magnitude hypothesis the range is violated (see the
counterexample). -/
theorem published_peak_in_range (p : GainMeterAudioProcessor)
    (buf : List (List ℝ))
    (h : blockPeak p buf ≤ 0 ∨
      (decibelsToGain (-60) ≤ blockPeak p buf ∧
        blockPeak p buf ≤ decibelsToGain 12)) :
    (-60 ≤ (processBlock p buf).1.currentPeakLevel ∧
      (processBlock p buf).1.currentPeakLevel ≤ 12) ∧
    (-60 ≤ getPeakLevel initialProcessor ∧ getPeakLevel initialProcessor ≤ 12) := by
  refine ⟨?_, by constructor <;> norm_num [getPeakLevel, initialProcessor]⟩
  rw [processBlock_published_eq]
  rcases h with h | ⟨hlo, hhi⟩
  · rw [if_neg (by linarith)]
    norm_num
  · have hpos : 0 < blockPeak p buf := lt_of_lt_of_le (decibelsToGain_pos _) hlo
    rw [if_pos hpos, gainToDecibels]
    have h1 : Real.logb 10 (decibelsToGain (-60)) ≤ Real.logb 10 (blockPeak p buf) :=
      Real.logb_le_logb_of_le (by norm_num) (decibelsToGain_pos _) hlo
    have h2 : Real.logb 10 (blockPeak p buf) ≤ Real.logb 10 (decibelsToGain 12) :=
      Real.logb_le_logb_of_le (by norm_num) hpos hhi
    rw [logb_decibelsToGain] at h1 h2
    constructor
    · linarith
    · linarith

/-- Witness for C3's amended statement: a unit-magnitude block at unity gain
has post-gain peak 1, within the admissible magnitude range, and its
published value lies in [-60, 12]. -/
theorem published_peak_in_range_witness :
    (blockPeak ⟨0, ⟨1, 1, 0, 0, 4⟩, 0⟩ [[1]] ≤ 0 ∨
      (decibelsToGain (-60) ≤ blockPeak ⟨0, ⟨1, 1, 0, 0, 4⟩, 0⟩ [[1]] ∧
        blockPeak ⟨0, ⟨1, 1, 0, 0, 4⟩, 0⟩ [[1]] ≤ decibelsToGain 12)) ∧
    (-60 ≤ (processBlock ⟨0, ⟨1, 1, 0, 0, 4⟩, 0⟩ [[1]]).1.currentPeakLevel ∧
      (processBlock ⟨0, ⟨1, 1, 0, 0, 4⟩, 0⟩ [[1]]).1.currentPeakLevel ≤ 12) := by
  have hpk : blockPeak ⟨0, ⟨1, 1, 0, 0, 4⟩, 0⟩ [[1]] = 1 := by
    simp only [blockPeak, decibelsToGain_zero, setTargetValue_unity_noop,
      processChannels, processChannel, getNextValue_unity_plateau, mul_one]
    norm_num
  have h : blockPeak ⟨0, ⟨1, 1, 0, 0, 4⟩, 0⟩ [[1]] ≤ 0 ∨
      (decibelsToGain (-60) ≤ blockPeak ⟨0, ⟨1, 1, 0, 0, 4⟩, 0⟩ [[1]] ∧
        blockPeak ⟨0, ⟨1, 1, 0, 0, 4⟩, 0⟩ [[1]] ≤ decibelsToGain 12) := by
    refine Or.inr ⟨?_, ?_⟩
    · rw [hpk, decibelsToGain_neg_sixty]
      norm_num
    · rw [hpk]
      exact one_le_decibelsToGain_twelve
  exact ⟨h, (published_peak_in_range ⟨0, ⟨1, 1, 0, 0, 4⟩, 0⟩ [[1]] h).1⟩

end GainMeter
